import Mathlib

/-!
Verification development for `import.py` of wordle-infinite.

The program is a single linear pass: it loads a keyboard layout file,
flattens it into a list of valid characters, scans a word list line by
line, filters each trimmed line through three checks (length in [4,8],
all characters valid, strictly more than `int(len/2)` distinct
characters), buckets survivors by exact length, and finally serializes
the five buckets to JSON files.

The embedding below models words as `List Char`, the Python dict
`storage` as an association list (so that the possibility of a
`KeyError` on `storage[len(line)]` is represented by an `Option`),
console output as a list of messages, and the whole of `main` as an
`Except`-valued function over an environment that provides the parsed
contents of the input files (a `none` layout stands for a missing or
malformed layout file, a `none` word list for a missing word-list file,
and `writable = false` for an unwritable output path).
-/

set_option maxHeartbeats 1000000

abbrev Word := List Char

/-- The whitespace characters removed by Python's `str.strip()`
(the ASCII ones; the word lists are line-oriented text). -/
def pyWhitespace : List Char := [' ', '\t', '\n', '\r', Char.ofNat 11, Char.ofNat 12]

/-- Model of `line.strip()`: drop whitespace from both ends. -/
def pyStrip (s : Word) : Word :=
  ((s.dropWhile (pyWhitespace.contains ·)).reverse.dropWhile (pyWhitespace.contains ·)).reverse

/-- Model of `len(set(line))`: the number of distinct characters. -/
def uniqueCount (w : Word) : Nat := w.dedup.length

/-- Model of Python's `int(len(line) / 2)`: true division producing a
float, then truncation toward zero.  For the lengths at which the code
evaluates this (at most 8, far below 2^53) the float division is exact,
so exact rational division models it; truncation toward zero of a
non-negative value is the floor. -/
def pyTruncHalf (L : Nat) : Nat := (Rat.floor ((L : ℚ) / 2)).toNat

/-- `valid_chars` (src/import.py line 18): flatten the parsed layout and
keep every item that is not in `["\n", "\t"]`. -/
def valid_chars (layout : List (List Char)) : List Char :=
  layout.flatMap (fun sublist => sublist.filter (fun item => !((['\n', '\t'] : List Char).contains item)))

/-- The bucket map: Python dict from length to list of words, modelled
as an association list in insertion order. -/
abbrev Storage := List (Nat × List Word)

/-- `storage` as initialized at src/import.py lines 9-15. -/
def initStorage : Storage := [(4, []), (5, []), (6, []), (7, []), (8, [])]

/-- The keys of the bucket map, in dict (= insertion) order. -/
def storageKeys (s : Storage) : List Nat := s.map Prod.fst

/-- Dict lookup: first entry with the given key. -/
def storageGet : Storage → Nat → Option (List Word)
  | [], _ => none
  | (k', ws) :: rest, k => if k = k' then some ws else storageGet rest k

/-- The bucket stored under key `k` (defaulting to `[]`, used only for
stating theorems; the code itself never reads a missing key). -/
def bucketAt (s : Storage) (k : Nat) : List Word := (storageGet s k).getD []

/-- Model of `storage[len(line)].append(line)`: append to the list under
key `k`; `none` models the `KeyError` raised when the key is absent. -/
def storageAppend : Storage → Nat → Word → Option Storage
  | [], _, _ => none
  | (k', ws) :: rest, k, w =>
    if k = k' then some ((k', ws ++ [w]) :: rest)
    else (storageAppend rest k w).map (fun rest' => (k', ws) :: rest')

/-- A console message printed by the program.  The constructors carry
exactly the data interpolated into the corresponding Python f-string. -/
inductive Msg
  | skipInvalidChars (w : Word)
  | skipNotUnique (w : Word)
  | writingSummary (count : Nat) (length : Nat)
deriving DecidableEq, Repr

/-- The state of the scan loop: the valid-character list (in scope
throughout the loop), the bucket map, and the console output so far. -/
structure ScanState where
  valid : List Char
  storage : Storage
  out : List Msg
deriving DecidableEq, Repr

/-- One iteration of the scan loop (src/import.py lines 21-35) on one
raw input line.  `none` models an uncaught `KeyError` at the append. -/
def scanStep (st : ScanState) (raw : Word) : Option ScanState :=
  if (pyStrip raw).length < 4 ∨ 8 < (pyStrip raw).length then
    some st
  else if ¬ (∀ c ∈ pyStrip raw, c ∈ st.valid) then
    some { st with out := st.out ++ [Msg.skipInvalidChars (pyStrip raw)] }
  else if uniqueCount (pyStrip raw) ≤ pyTruncHalf (pyStrip raw).length then
    some { st with out := st.out ++ [Msg.skipNotUnique (pyStrip raw)] }
  else
    match storageAppend st.storage (pyStrip raw).length (pyStrip raw) with
    | some s => some { st with storage := s }
    | none => none

/-- The whole scan loop over the lines of the word-list file. -/
def scanLines (st : ScanState) : List Word → Option ScanState
  | [] => some st
  | l :: ls =>
    match scanStep st l with
    | some st' => scanLines st' ls
    | none => none

/-- The console messages one raw line produces (read off the branches of
the loop body). -/
def lineMsgs (valid : List Char) (raw : Word) : List Msg :=
  if (pyStrip raw).length < 4 ∨ 8 < (pyStrip raw).length then []
  else if ¬ (∀ c ∈ pyStrip raw, c ∈ valid) then [Msg.skipInvalidChars (pyStrip raw)]
  else if uniqueCount (pyStrip raw) ≤ pyTruncHalf (pyStrip raw).length then
    [Msg.skipNotUnique (pyStrip raw)]
  else []

/-- All console messages of the scan, in order. -/
def scanDiags (valid : List Char) (lines : List Word) : List Msg :=
  lines.flatMap (lineMsgs valid)

/-- Modelled from the spec and the words of the claim: the bucket for
length `N` should hold exactly the trimmed lines of length `N` whose
characters are all valid and whose distinct-character count strictly
exceeds `⌊N / 2⌋`, in input order, duplicates retained. -/
def specBucket (valid : List Char) (N : Nat) : List Word → List Word
  | [] => []
  | l :: ls =>
    (if (pyStrip l).length = N ∧ (∀ c ∈ pyStrip l, c ∈ valid) ∧ N / 2 < uniqueCount (pyStrip l)
      then [pyStrip l] else []) ++ specBucket valid N ls

/-- Modelled from the spec's words for the loader contract: flatten the
nested layout into one collection and remove exactly the elements equal
to the newline character and the tab character. -/
def specValidChars (layout : List (List Char)) : List Char :=
  layout.flatten.filter (fun c => !(c == '\n' || c == '\t'))

/-- The acceptance predicate of the spec's bucket invariant, as an
executable check: length in [4,8], every character valid, distinct
count strictly above `⌊length / 2⌋`, and stored under its exact length. -/
def goodWordB (valid : List Char) (k : Nat) (w : Word) : Bool :=
  decide (4 ≤ w.length) && decide (w.length ≤ 8) &&
    decide (∀ c ∈ w, c ∈ valid) && decide (w.length / 2 < uniqueCount w) &&
    decide (w.length = k)

/-- The bucket-map invariant: every stored word is accepted and filed
under its exact length. -/
def storageInvB (valid : List Char) (s : Storage) : Bool :=
  s.all (fun p => p.2.all (fun w => goodWordB valid p.1 w))

/-- Lowercase hexadecimal digit, as produced by Python's `json.dump`. -/
def hexDigit (n : Nat) : Char :=
  if n < 10 then Char.ofNat (48 + n) else Char.ofNat (87 + n)

/-- Four lowercase hex digits. -/
def hex4 (n : Nat) : String :=
  String.mk [hexDigit (n / 4096 % 16), hexDigit (n / 256 % 16), hexDigit (n / 16 % 16), hexDigit (n % 16)]

/-- How `json.dump` (defaults: `ensure_ascii=True`) renders one
character inside a JSON string. -/
def jsonEscapeChar (c : Char) : String :=
  if c = '"' then "\\\""
  else if c = '\\' then "\\\\"
  else if c = '\n' then "\\n"
  else if c = '\t' then "\\t"
  else if c = '\r' then "\\r"
  else if c.toNat = 8 then "\\b"
  else if c.toNat = 12 then "\\f"
  else if c.toNat < 32 then "\\u" ++ hex4 c.toNat
  else if c.toNat < 127 then String.mk [c]
  else if c.toNat ≤ 65535 then "\\u" ++ hex4 c.toNat
  else "\\u" ++ hex4 (55296 + (c.toNat - 65536) / 1024) ++ "\\u" ++ hex4 (56320 + (c.toNat - 65536) % 1024)

/-- A JSON string literal for one word. -/
def jsonString (w : Word) : String :=
  "\"" ++ String.join (w.map jsonEscapeChar) ++ "\""

/-- `json.dump` of a list of words: a JSON array with `", "` between
items (the default separator); the empty list renders as `[]`. -/
def jsonDumpList (ws : List Word) : String :=
  "[" ++ String.intercalate ", " (ws.map jsonString) ++ "]"

/-- An externally observable event of the run: a console print or the
write of a named output file with given contents. -/
inductive Event
  | consolePrint (m : Msg)
  | fileWrite (name : String) (contents : String)
deriving DecidableEq, Repr

/-- The writer stage (src/import.py lines 37-40): for each bucket, in
dict iteration order, print the summary line and then write the file
`{language}/length{N}.json` with the JSON serialization of the bucket. -/
def writeStage (language : String) (s : Storage) : List Event :=
  s.flatMap (fun p =>
    [Event.consolePrint (Msg.writingSummary p.2.length p.1),
     Event.fileWrite (language ++ "/length" ++ toString p.1 ++ ".json") (jsonDumpList p.2)])

/-- The environment of a run: the parsed contents of the layout file
(`none` = missing or malformed), the lines of the word-list file
(`none` = missing), and whether the output path is writable. -/
structure Env where
  layout? : Option (List (List Char))
  words? : Option (List Word)
  writable : Bool

/-- The uncaught Python exceptions that can abort the run. -/
inductive PyErr
  | layoutError
  | wordlistError
  | keyError
  | writeError
deriving DecidableEq, Repr

/-- `main(language, keyboard, path)` (src/import.py lines 8-40): load
and flatten the layout, scan the word list, then run the writer stage.
Any failure is an uncaught exception (`Except.error`); there is no
`try`/`except` anywhere in the source.  `keyboard` and `path` only name
the files whose parsed contents `env` supplies. -/
def mainRun (language : String) (keyboard : String) (path : String) (env : Env) :
    Except PyErr (List Event) :=
  match env.layout? with
  | none => Except.error PyErr.layoutError
  | some layout =>
    match env.words? with
    | none => Except.error PyErr.wordlistError
    | some lines =>
      match scanLines { valid := valid_chars layout, storage := initStorage, out := [] } lines with
      | none => Except.error PyErr.keyError
      | some st =>
        if env.writable then
          Except.ok (st.out.map Event.consolePrint ++ writeStage language st.storage)
        else
          Except.error PyErr.writeError

/-- The names of the files a trace writes, in order. -/
def writeNames (tr : List Event) : List String :=
  tr.filterMap (fun e =>
    match e with
    | Event.fileWrite n _ => some n
    | Event.consolePrint _ => none)

/-- The minimum distinct-character counts the spec's table demands for
each in-range length (spec section 4.2 step 4). -/
def minUniqueReq : Nat → Nat
  | 4 => 3
  | 5 => 3
  | 6 => 4
  | 7 => 4
  | 8 => 5
  | _ => 0

/-- The state of the scan loop just before the word-list file is read:
the freshly built valid-character list, the empty buckets, and no
console output yet. -/
def initState (valid : List Char) : ScanState :=
  { valid := valid, storage := initStorage, out := [] }

/-! ### Helper lemmas -/

/-- Truncated exact division by two agrees with natural floor division
(the claim of the code comment on `pyTruncHalf`, proved once and used
throughout). -/
@[simp]
theorem pyTruncHalf_eq (L : Nat) : pyTruncHalf L = L / 2 := by
  unfold pyTruncHalf
  have h : Rat.floor ((L : ℚ) / 2) = Int.floor ((L : ℚ) / 2) := rfl
  have h2 : ((2 : ℚ)) = ((2 : ℕ) : ℚ) := by norm_num
  rw [h, h2, Rat.floor_natCast_div_natCast L 2]
  omega

theorem storageGet_eq_none_iff (s : Storage) (k : Nat) :
    storageGet s k = none ↔ k ∉ storageKeys s := by
  induction s with
  | nil => simp [storageGet, storageKeys]
  | cons p rest ih =>
    obtain ⟨k', ws⟩ := p
    by_cases hk : k = k' <;> simp [storageGet, storageKeys, hk] at ih ⊢
    exact ih

theorem storageAppend_isSome (s : Storage) (k : Nat) (w : Word) :
    (storageAppend s k w).isSome = (storageKeys s).contains k := by
  induction s with
  | nil => simp [storageAppend, storageKeys]
  | cons p rest ih =>
    obtain ⟨k', ws⟩ := p
    by_cases hk : k = k' <;>
      simp [storageAppend, storageKeys, hk, Option.isSome_map] at ih ⊢ <;>
      simp [ih, hk]

theorem storageAppend_some (s : Storage) (k : Nat) (w : Word) (s' : Storage)
    (h : storageAppend s k w = some s') :
    storageKeys s' = storageKeys s ∧
      (∀ j, storageGet s' j =
        if j = k then (storageGet s j).map (fun ws => ws ++ [w]) else storageGet s j) := by
  induction s generalizing s' with
  | nil => simp [storageAppend] at h
  | cons p rest ih =>
    obtain ⟨k', ws⟩ := p
    by_cases hk : k = k'
    · rw [storageAppend, if_pos hk] at h
      obtain rfl := Option.some_inj.mp h
      subst hk
      refine ⟨by simp [storageKeys], fun j => ?_⟩
      by_cases hj : j = k
      · subst hj
        simp [storageGet]
      · simp [storageGet, hj]
    · rw [storageAppend, if_neg hk] at h
      obtain ⟨rest', hrest, hcons⟩ := Option.map_eq_some'.mp h
      obtain rfl := hcons
      obtain ⟨hkeys, hget⟩ := ih rest' hrest
      constructor
      · simp only [storageKeys, List.map_cons] at hkeys ⊢
        rw [hkeys]
      · intro j
        by_cases hj' : j = k'
        · have hjk : ¬ j = k := fun e => hk (e ▸ hj')
          rw [if_neg hjk]
          simp [storageGet, hj']
        · simp only [storageGet, if_neg hj']
          rw [hget j]

theorem scanDiags_cons (valid : List Char) (l : Word) (ls : List Word) :
    scanDiags valid (l :: ls) = lineMsgs valid l ++ scanDiags valid ls := by
  simp [scanDiags]

theorem mem_bucketKeys_bounds {N : Nat} (h : N ∈ [4, 5, 6, 7, 8]) : 4 ≤ N ∧ N ≤ 8 := by
  simp only [List.mem_cons, List.not_mem_nil, or_false] at h
  omega

theorem specBucket_cons (valid : List Char) (N : Nat) (l : Word) (ls : List Word) :
    specBucket valid N (l :: ls) =
      (if (pyStrip l).length = N ∧ (∀ c ∈ pyStrip l, c ∈ valid) ∧ N / 2 < uniqueCount (pyStrip l)
        then [pyStrip l] else []) ++ specBucket valid N ls := rfl

/-- The master run lemma: starting from any state carrying the
valid-character list and a bucket map keyed by 4..8, the scan loop
always succeeds, keeps the valid-character list and the keys unchanged,
extends each bucket with exactly the accepted trimmed lines of that
length, and extends the console output with exactly the per-line
diagnostics. -/
theorem scanLines_run (valid : List Char) (lines : List Word) :
    ∀ st : ScanState, st.valid = valid → storageKeys st.storage = [4, 5, 6, 7, 8] →
    ∃ st', scanLines st lines = some st' ∧
      st'.valid = valid ∧
      storageKeys st'.storage = [4, 5, 6, 7, 8] ∧
      (∀ N, storageGet st'.storage N =
        (storageGet st.storage N).map (fun ws => ws ++ specBucket valid N lines)) ∧
      st'.out = st.out ++ scanDiags valid lines := by
  induction lines with
  | nil =>
    intro st hv hk
    refine ⟨st, rfl, hv, hk, fun N => ?_, by simp [scanDiags]⟩
    simp [specBucket, scanDiags]
  | cons l ls ih =>
    intro st hv hk
    obtain ⟨v, s, o⟩ := st
    simp only at hv hk
    subst v
    by_cases hlen : (pyStrip l).length < 4 ∨ 8 < (pyStrip l).length
    · -- length out of range: silent skip, state unchanged
      have hstep : scanStep ⟨valid, s, o⟩ l = some ⟨valid, s, o⟩ := by
        rw [scanStep, if_pos hlen]
      obtain ⟨st', hrun, hv', hk', hbuck, hout⟩ := ih ⟨valid, s, o⟩ rfl hk
      refine ⟨st', by simp only [scanLines, hstep]; exact hrun, hv', hk', fun N => ?_, ?_⟩
      · show storageGet st'.storage N =
          (storageGet s N).map (fun ws => ws ++ specBucket valid N (l :: ls))
        have hbuckN : storageGet st'.storage N =
            (storageGet s N).map (fun ws => ws ++ specBucket valid N ls) := hbuck N
        rw [hbuckN, specBucket_cons]
        rcases hget : storageGet s N with _ | ws
        · rfl
        · have hmem : N ∈ storageKeys s := by
            by_contra hnm
            rw [(storageGet_eq_none_iff s N).mpr hnm] at hget
            exact Option.noConfusion hget
          have hbounds : 4 ≤ N ∧ N ≤ 8 := mem_bucketKeys_bounds (hk ▸ hmem)
          have hfail : ¬ ((pyStrip l).length = N ∧ (∀ c ∈ pyStrip l, c ∈ valid) ∧
              N / 2 < uniqueCount (pyStrip l)) := by
            rintro ⟨h1, -, -⟩
            omega
          rw [if_neg hfail]
          rfl
      · show st'.out = o ++ scanDiags valid (l :: ls)
        have houtN : st'.out = o ++ scanDiags valid ls := hout
        rw [houtN, scanDiags_cons, lineMsgs, if_pos hlen]
        simp
    · by_cases hchars : (∀ c ∈ pyStrip l, c ∈ valid)
      · by_cases huniq : uniqueCount (pyStrip l) ≤ pyTruncHalf (pyStrip l).length
        · -- uniqueness rejection: diagnostic, storage unchanged
          have hstep : scanStep ⟨valid, s, o⟩ l =
              some ⟨valid, s, o ++ [Msg.skipNotUnique (pyStrip l)]⟩ := by
            rw [scanStep, if_neg hlen, if_neg (by simpa using hchars), if_pos huniq]
          obtain ⟨st', hrun, hv', hk', hbuck, hout⟩ :=
            ih ⟨valid, s, o ++ [Msg.skipNotUnique (pyStrip l)]⟩ rfl hk
          refine ⟨st', by simp only [scanLines, hstep]; exact hrun, hv', hk', fun N => ?_, ?_⟩
          · show storageGet st'.storage N =
              (storageGet s N).map (fun ws => ws ++ specBucket valid N (l :: ls))
            have hbuckN : storageGet st'.storage N =
                (storageGet s N).map (fun ws => ws ++ specBucket valid N ls) := hbuck N
            rw [hbuckN, specBucket_cons]
            have hfail : ¬ ((pyStrip l).length = N ∧ (∀ c ∈ pyStrip l, c ∈ valid) ∧
                N / 2 < uniqueCount (pyStrip l)) := by
              rintro ⟨h1, -, h3⟩
              rw [pyTruncHalf_eq] at huniq
              omega
            rw [if_neg hfail]
            rfl
          · show st'.out = o ++ scanDiags valid (l :: ls)
            have houtN : st'.out = o ++ [Msg.skipNotUnique (pyStrip l)] ++ scanDiags valid ls :=
              hout
            rw [houtN, scanDiags_cons, lineMsgs, if_neg hlen, if_neg (by simpa using hchars),
              if_pos huniq]
            simp
        · -- acceptance: append to the bucket of the exact length
          have hbounds : 4 ≤ (pyStrip l).length ∧ (pyStrip l).length ≤ 8 := by
            rw [not_or] at hlen
            omega
          have hmem : (pyStrip l).length ∈ storageKeys s := by
            rw [hk]
            simp only [List.mem_cons, List.not_mem_nil, or_false]
            omega
          have happ : (storageAppend s (pyStrip l).length (pyStrip l)).isSome = true := by
            rw [storageAppend_isSome]
            simpa using hmem
          obtain ⟨s₁, hs₁⟩ := Option.isSome_iff_exists.mp happ
          obtain ⟨hkeys₁, hget₁⟩ := storageAppend_some _ _ _ _ hs₁
          have hstep : scanStep ⟨valid, s, o⟩ l = some ⟨valid, s₁, o⟩ := by
            rw [scanStep, if_neg hlen, if_neg (by simpa using hchars), if_neg huniq]
            simp only [hs₁]
          obtain ⟨st', hrun, hv', hk', hbuck, hout⟩ :=
            ih ⟨valid, s₁, o⟩ rfl (by rw [hkeys₁, hk])
          refine ⟨st', by simp only [scanLines, hstep]; exact hrun, hv', hk', fun N => ?_, ?_⟩
          · show storageGet st'.storage N =
              (storageGet s N).map (fun ws => ws ++ specBucket valid N (l :: ls))
            have hbuckN : storageGet st'.storage N =
                (storageGet s₁ N).map (fun ws => ws ++ specBucket valid N ls) := hbuck N
            rw [hbuckN, hget₁ N, specBucket_cons]
            by_cases hN : N = (pyStrip l).length
            · have hok : (pyStrip l).length = N ∧ (∀ c ∈ pyStrip l, c ∈ valid) ∧
                  N / 2 < uniqueCount (pyStrip l) := by
                refine ⟨hN.symm, hchars, ?_⟩
                rw [pyTruncHalf_eq] at huniq
                omega
              rw [if_pos hN, if_pos hok]
              cases storageGet s N <;> simp
            · rw [if_neg hN, if_neg (fun hc => hN ((hc.1).symm))]
              rfl
          · show st'.out = o ++ scanDiags valid (l :: ls)
            have houtN : st'.out = o ++ scanDiags valid ls := hout
            rw [houtN, scanDiags_cons, lineMsgs, if_neg hlen, if_neg (by simpa using hchars),
              if_neg huniq]
            simp
      · -- invalid-character rejection: diagnostic, storage unchanged
        have hstep : scanStep ⟨valid, s, o⟩ l =
            some ⟨valid, s, o ++ [Msg.skipInvalidChars (pyStrip l)]⟩ := by
          rw [scanStep, if_neg hlen, if_pos (by simpa using hchars)]
        obtain ⟨st', hrun, hv', hk', hbuck, hout⟩ :=
          ih ⟨valid, s, o ++ [Msg.skipInvalidChars (pyStrip l)]⟩ rfl hk
        refine ⟨st', by simp only [scanLines, hstep]; exact hrun, hv', hk', fun N => ?_, ?_⟩
        · show storageGet st'.storage N =
            (storageGet s N).map (fun ws => ws ++ specBucket valid N (l :: ls))
          have hbuckN : storageGet st'.storage N =
              (storageGet s N).map (fun ws => ws ++ specBucket valid N ls) := hbuck N
          rw [hbuckN, specBucket_cons]
          have hfail : ¬ ((pyStrip l).length = N ∧ (∀ c ∈ pyStrip l, c ∈ valid) ∧
              N / 2 < uniqueCount (pyStrip l)) := by
            rintro ⟨-, h2, -⟩
            exact hchars h2
          rw [if_neg hfail]
          rfl
        · show st'.out = o ++ scanDiags valid (l :: ls)
          have houtN : st'.out = o ++ [Msg.skipInvalidChars (pyStrip l)] ++ scanDiags valid ls :=
            hout
          rw [houtN, scanDiags_cons, lineMsgs, if_neg hlen, if_pos (by simpa using hchars)]
          simp

theorem scanStep_valid_eq (st : ScanState) (raw : Word) (st' : ScanState)
    (h : scanStep st raw = some st') : st'.valid = st.valid := by
  rw [scanStep] at h
  split at h
  · obtain rfl := Option.some_inj.mp h
    rfl
  · split at h
    · obtain rfl := Option.some_inj.mp h
      rfl
    · split at h
      · obtain rfl := Option.some_inj.mp h
        rfl
      · split at h
        · obtain rfl := Option.some_inj.mp h
          rfl
        · cases h

theorem scanLines_valid_eq (lines : List Word) :
    ∀ st st' : ScanState, scanLines st lines = some st' → st'.valid = st.valid := by
  induction lines with
  | nil =>
    intro st st' h
    rw [scanLines] at h
    obtain rfl := Option.some_inj.mp h
    rfl
  | cons l ls ih =>
    intro st st' h
    rw [scanLines] at h
    rcases hs : scanStep st l with _ | st₁
    · rw [hs] at h
      cases h
    · rw [hs] at h
      exact (ih st₁ st' h).trans (scanStep_valid_eq st l st₁ hs)

theorem storageInvB_append (valid : List Char) (s : Storage) (k : Nat) (w : Word) (s' : Storage)
    (hinv : storageInvB valid s = true) (hw : goodWordB valid k w = true)
    (happ : storageAppend s k w = some s') : storageInvB valid s' = true := by
  induction s generalizing s' with
  | nil => simp [storageAppend] at happ
  | cons p rest ih =>
    obtain ⟨k', ws⟩ := p
    rw [storageInvB, List.all_cons, Bool.and_eq_true] at hinv
    obtain ⟨h1, h2⟩ := hinv
    by_cases hk : k = k'
    · rw [storageAppend, if_pos hk] at happ
      obtain rfl := Option.some_inj.mp happ
      subst hk
      rw [storageInvB, List.all_cons, Bool.and_eq_true]
      refine ⟨?_, h2⟩
      simp only [List.all_append, Bool.and_eq_true] at h1 ⊢
      exact ⟨h1, by simpa using hw⟩
    · rw [storageAppend, if_neg hk] at happ
      obtain ⟨rest', hrest, hcons⟩ := Option.map_eq_some'.mp happ
      obtain rfl := hcons
      rw [storageInvB, List.all_cons, Bool.and_eq_true]
      exact ⟨h1, ih rest' h2 hrest⟩

theorem scanStep_inv_preserved (valid : List Char) (st : ScanState) (raw : Word)
    (st' : ScanState) (hv : st.valid = valid) (hinv : storageInvB valid st.storage = true)
    (h : scanStep st raw = some st') : storageInvB valid st'.storage = true := by
  by_cases hlen : (pyStrip raw).length < 4 ∨ 8 < (pyStrip raw).length
  · rw [scanStep, if_pos hlen] at h
    obtain rfl := Option.some_inj.mp h
    exact hinv
  · by_cases hchars : (∀ c ∈ pyStrip raw, c ∈ st.valid)
    · by_cases huniq : uniqueCount (pyStrip raw) ≤ pyTruncHalf (pyStrip raw).length
      · rw [scanStep, if_neg hlen, if_neg (not_not_intro hchars), if_pos huniq] at h
        obtain rfl := Option.some_inj.mp h
        exact hinv
      · rw [scanStep, if_neg hlen, if_neg (not_not_intro hchars), if_neg huniq] at h
        rcases hs₁ : storageAppend st.storage (pyStrip raw).length (pyStrip raw) with _ | s₁
        · rw [hs₁] at h
          cases h
        · rw [hs₁] at h
          obtain rfl := Option.some_inj.mp h
          refine storageInvB_append valid st.storage _ _ s₁ hinv ?_ hs₁
          rw [goodWordB]
          simp only [Bool.and_eq_true, decide_eq_true_eq]
          rw [not_or] at hlen
          rw [pyTruncHalf_eq] at huniq
          exact ⟨⟨⟨⟨by omega, by omega⟩, hv ▸ hchars⟩, by omega⟩, trivial⟩
    · rw [scanStep, if_neg hlen, if_pos hchars] at h
      obtain rfl := Option.some_inj.mp h
      exact hinv

theorem scanLines_inv_preserved (valid : List Char) (lines : List Word) :
    ∀ st st' : ScanState, st.valid = valid → storageInvB valid st.storage = true →
      scanLines st lines = some st' → storageInvB valid st'.storage = true := by
  induction lines with
  | nil =>
    intro st st' hv hinv h
    rw [scanLines] at h
    obtain rfl := Option.some_inj.mp h
    exact hinv
  | cons l ls ih =>
    intro st st' hv hinv h
    rw [scanLines] at h
    rcases hs : scanStep st l with _ | st₁
    · rw [hs] at h
      cases h
    · rw [hs] at h
      exact ih st₁ st' ((scanStep_valid_eq st l st₁ hs).trans hv)
        (scanStep_inv_preserved valid st l st₁ hv hinv hs) h

theorem writeNames_prints_append (msgs : List Msg) (tr : List Event) :
    writeNames (msgs.map Event.consolePrint ++ tr) = writeNames tr := by
  induction msgs with
  | nil => rfl
  | cons m ms ih => simpa [writeNames] using ih

theorem writeNames_writeStage (language : String) (s : Storage) :
    writeNames (writeStage language s) =
      (storageKeys s).map (fun k => language ++ "/length" ++ toString k ++ ".json") := by
  induction s with
  | nil => rfl
  | cons p rest ih => simpa [writeNames, writeStage, storageKeys] using ih

/-- One loop iteration from a well-keyed state always succeeds and
extends the console output by exactly the line's diagnostics. -/
theorem scanStep_total (st : ScanState) (raw : Word)
    (hkeys : storageKeys st.storage = [4, 5, 6, 7, 8]) :
    ∃ st', scanStep st raw = some st' ∧
      st'.out = st.out ++ lineMsgs st.valid raw := by
  obtain ⟨st', hrun, -, -, -, hout⟩ := scanLines_run st.valid [raw] st rfl hkeys
  have hstep : scanStep st raw = some st' := by
    rcases hs : scanStep st raw with _ | st₁
    · simp only [scanLines, hs] at hrun
      exact hrun
    · simp only [scanLines, hs] at hrun
      exact hrun
  refine ⟨st', hstep, ?_⟩
  rw [hout]
  simp [scanDiags]

/-! ### Claim theorems -/

/-- C1: for every length N in {4,..,8}, the scan always completes and
the final bucket for N is exactly the sequence of trimmed input lines
of length N whose characters are all valid and whose distinct-character
count strictly exceeds ⌊N/2⌋, in input-file order, duplicates
retained. -/
theorem bucket_contents_exact (valid : List Char) (lines : List Word) (N : Nat)
    (h4 : 4 ≤ N) (h8 : N ≤ 8) :
    ∃ st', scanLines (initState valid) lines = some st' ∧
      bucketAt st'.storage N = specBucket valid N lines := by
  obtain ⟨st', hrun, -, -, hbuck, -⟩ := scanLines_run valid lines (initState valid) rfl rfl
  refine ⟨st', hrun, ?_⟩
  have hget : storageGet (initState valid).storage N = some [] := by
    interval_cases N <;> rfl
  rw [bucketAt, hbuck N, hget]
  rfl

/-- C1 witness. -/
theorem bucket_contents_exact_witness :
    ∃ st', scanLines (initState ['a', 'b', 'c', 'd', 'e']) [['a', 'b', 'c', 'd']] = some st' ∧
      bucketAt st'.storage 4 = specBucket ['a', 'b', 'c', 'd', 'e'] 4 [['a', 'b', 'c', 'd']] :=
  bucket_contents_exact ['a', 'b', 'c', 'd', 'e'] [['a', 'b', 'c', 'd']] 4
    (by decide) (by decide)

/-- C2: the bucket-map invariant — every stored word has length in
[4,8], only valid characters, strictly more than ⌊length/2⌋ distinct
characters, and sits under the key equal to its exact length — holds of
the initial map, is preserved by every single loop iteration, and hence
holds at every point of the scan. -/
theorem bucket_invariant (valid : List Char) :
    storageInvB valid initStorage = true ∧
    (∀ st raw st', st.valid = valid → storageInvB valid st.storage = true →
      scanStep st raw = some st' → storageInvB valid st'.storage = true) ∧
    (∀ lines st st', st.valid = valid → storageInvB valid st.storage = true →
      scanLines st lines = some st' → storageInvB valid st'.storage = true) :=
  ⟨rfl, fun st raw st' hv hinv h => scanStep_inv_preserved valid st raw st' hv hinv h,
    fun lines st st' hv hinv h => scanLines_inv_preserved valid lines st st' hv hinv h⟩

/-- C2 witness. -/
theorem bucket_invariant_witness :
    storageInvB ['a'] (ScanState.mk ['a'] initStorage [Msg.skipInvalidChars ['b', 'c', 'd', 'e']]).storage = true :=
  (bucket_invariant ['a']).2.1 (initState ['a']) ['b', 'c', 'd', 'e']
    (ScanState.mk ['a'] initStorage [Msg.skipInvalidChars ['b', 'c', 'd', 'e']])
    rfl (by decide) (by decide)

/-- C9: the valid-character list is part of the loop state but no loop
iteration (and hence no run of the scan) ever changes it: its value at
any character check equals its value when it was built. -/
theorem valid_chars_immutable :
    (∀ st raw st', scanStep st raw = some st' → st'.valid = st.valid) ∧
    (∀ lines st st', scanLines st lines = some st' → st'.valid = st.valid) :=
  ⟨fun st raw st' h => scanStep_valid_eq st raw st' h,
    fun lines st st' h => scanLines_valid_eq lines st st' h⟩

/-- C9 witness. -/
theorem valid_chars_immutable_witness :
    (ScanState.mk ['a'] initStorage [Msg.skipInvalidChars ['b', 'c', 'd', 'e']]).valid =
      (initState ['a']).valid :=
  valid_chars_immutable.2 [['b', 'c', 'd', 'e']] (initState ['a'])
    (ScanState.mk ['a'] initStorage [Msg.skipInvalidChars ['b', 'c', 'd', 'e']]) (by decide)

/-- C10: the append's dict lookup succeeds exactly when the key is
present, and from the initial bucket map (keyed 4..8) the scan never
hits the KeyError branch: the whole loop always returns a state. -/
theorem storage_lookup_never_fails :
    (∀ s k w, (storageAppend s k w).isSome = (storageKeys s).contains k) ∧
    (∀ valid lines, (scanLines (initState valid) lines).isSome = true) := by
  refine ⟨storageAppend_isSome, fun valid lines => ?_⟩
  obtain ⟨st', hrun, -⟩ := scanLines_run valid lines (initState valid) rfl rfl
  rw [hrun]
  rfl

/-- C3: the loader returns exactly the flattening of the nested layout
with the elements equal to newline and tab removed — nothing else is
removed and nothing is added (list equality, so order and multiplicity
agree as well). -/
theorem loader_flatten_filter (layout : List (List Char)) :
    valid_chars layout = specValidChars layout := by
  have hfun : ∀ c : Char,
      (!((['\n', '\t'] : List Char).contains c)) = (!(c == '\n' || c == '\t')) := by
    intro c
    by_cases h1 : c = '\n' <;> by_cases h2 : c = '\t' <;> simp [List.contains, h1, h2]
  induction layout with
  | nil => rfl
  | cons row rows ih =>
    simp only [valid_chars, specValidChars, List.flatMap_cons, List.flatten_cons,
      List.filter_append] at ih ⊢
    rw [List.filter_congr (fun a _ => hfun a), ih]

/-- C4: Python's `int(len / 2)` equals ⌊L/2⌋ for the in-range lengths,
so a word that passed the character check is rejected exactly when its
distinct-character count is ≤ ⌊L/2⌋; equivalently, acceptance needs at
least 3 distinct for lengths 4 and 5, 4 for lengths 6 and 7, and 5 for
length 8. -/
theorem unique_letter_threshold (L : Nat) (h4 : 4 ≤ L) (h8 : L ≤ 8) :
    pyTruncHalf L = L / 2 ∧
    ∀ w : Word, w.length = L →
      ((uniqueCount w ≤ pyTruncHalf L ↔ uniqueCount w ≤ L / 2) ∧
        (pyTruncHalf L < uniqueCount w ↔ minUniqueReq L ≤ uniqueCount w)) := by
  refine ⟨pyTruncHalf_eq L, fun w hw => ⟨by rw [pyTruncHalf_eq], ?_⟩⟩
  rw [pyTruncHalf_eq]
  interval_cases L <;> simp [minUniqueReq] <;> omega

/-- C4 witness. -/
theorem unique_letter_threshold_witness :
    (uniqueCount ['a', 'b', 'c', 'a', 'b', 'a'] ≤ pyTruncHalf 6 ↔
      uniqueCount ['a', 'b', 'c', 'a', 'b', 'a'] ≤ 6 / 2) ∧
    (pyTruncHalf 6 < uniqueCount ['a', 'b', 'c', 'a', 'b', 'a'] ↔
      minUniqueReq 6 ≤ uniqueCount ['a', 'b', 'c', 'a', 'b', 'a']) :=
  (unique_letter_threshold 6 (by decide) (by decide)).2 ['a', 'b', 'c', 'a', 'b', 'a'] (by decide)

/-- C5: per input line — the loop never aborts on a rejection and
continues with the next line; the console output grows by that line's
diagnostics, which number at most one; an out-of-range trimmed length
is silent; an in-range line with an invalid character gets exactly the
invalid-character diagnostic (regardless of its distinct-letter count);
an in-range all-valid line failing the uniqueness check gets exactly
the uniqueness diagnostic; an accepted line is silent. -/
theorem per_line_console (st : ScanState) (raw : Word)
    (hkeys : storageKeys st.storage = [4, 5, 6, 7, 8]) :
    ∃ st', scanStep st raw = some st' ∧
      (∀ ls, scanLines st (raw :: ls) = scanLines st' ls) ∧
      st'.out = st.out ++ lineMsgs st.valid raw ∧
      (lineMsgs st.valid raw).length ≤ 1 ∧
      ((pyStrip raw).length < 4 ∨ 8 < (pyStrip raw).length → lineMsgs st.valid raw = []) ∧
      (4 ≤ (pyStrip raw).length → (pyStrip raw).length ≤ 8 →
        ¬ (∀ c ∈ pyStrip raw, c ∈ st.valid) →
        lineMsgs st.valid raw = [Msg.skipInvalidChars (pyStrip raw)]) ∧
      (4 ≤ (pyStrip raw).length → (pyStrip raw).length ≤ 8 →
        (∀ c ∈ pyStrip raw, c ∈ st.valid) →
        uniqueCount (pyStrip raw) ≤ (pyStrip raw).length / 2 →
        lineMsgs st.valid raw = [Msg.skipNotUnique (pyStrip raw)]) ∧
      (4 ≤ (pyStrip raw).length → (pyStrip raw).length ≤ 8 →
        (∀ c ∈ pyStrip raw, c ∈ st.valid) →
        (pyStrip raw).length / 2 < uniqueCount (pyStrip raw) →
        lineMsgs st.valid raw = []) := by
  obtain ⟨st', hstep, hout⟩ := scanStep_total st raw hkeys
  refine ⟨st', hstep, fun ls => by simp only [scanLines, hstep], hout, ?_, ?_, ?_, ?_, ?_⟩
  · rw [lineMsgs]
    split_ifs <;> simp
  · intro h
    rw [lineMsgs, if_pos h]
  · intro ha hb hc
    rw [lineMsgs, if_neg (by omega), if_pos hc]
  · intro ha hb hc hd
    rw [lineMsgs, if_neg (by omega), if_neg (not_not_intro hc),
      if_pos (by rw [pyTruncHalf_eq]; exact hd)]
  · intro ha hb hc hd
    rw [lineMsgs, if_neg (by omega), if_neg (not_not_intro hc),
      if_neg (by rw [pyTruncHalf_eq]; omega)]

/-- C5 witness. -/
theorem per_line_console_witness :
    ∃ st', scanStep (initState ['a']) ['h', 'i'] = some st' ∧
      (∀ ls, scanLines (initState ['a']) (['h', 'i'] :: ls) = scanLines st' ls) ∧
      st'.out = (initState ['a']).out ++ lineMsgs (initState ['a']).valid ['h', 'i'] ∧
      (lineMsgs (initState ['a']).valid ['h', 'i']).length ≤ 1 ∧
      ((pyStrip ['h', 'i']).length < 4 ∨ 8 < (pyStrip ['h', 'i']).length →
        lineMsgs (initState ['a']).valid ['h', 'i'] = []) ∧
      (4 ≤ (pyStrip ['h', 'i']).length → (pyStrip ['h', 'i']).length ≤ 8 →
        ¬ (∀ c ∈ pyStrip ['h', 'i'], c ∈ (initState ['a']).valid) →
        lineMsgs (initState ['a']).valid ['h', 'i'] =
          [Msg.skipInvalidChars (pyStrip ['h', 'i'])]) ∧
      (4 ≤ (pyStrip ['h', 'i']).length → (pyStrip ['h', 'i']).length ≤ 8 →
        (∀ c ∈ pyStrip ['h', 'i'], c ∈ (initState ['a']).valid) →
        uniqueCount (pyStrip ['h', 'i']) ≤ (pyStrip ['h', 'i']).length / 2 →
        lineMsgs (initState ['a']).valid ['h', 'i'] =
          [Msg.skipNotUnique (pyStrip ['h', 'i'])]) ∧
      (4 ≤ (pyStrip ['h', 'i']).length → (pyStrip ['h', 'i']).length ≤ 8 →
        (∀ c ∈ pyStrip ['h', 'i'], c ∈ (initState ['a']).valid) →
        (pyStrip ['h', 'i']).length / 2 < uniqueCount (pyStrip ['h', 'i']) →
        lineMsgs (initState ['a']).valid ['h', 'i'] = []) :=
  per_line_console (initState ['a']) ['h', 'i'] rfl

/-- C6: the writer emits, for the buckets in ascending length order
4,5,6,7,8, one count summary print followed by one write of the file
{language}/length{N}.json whose contents are the JSON array
serialization of that bucket; the empty bucket serializes to "[]", so
every file is written even when its bucket is empty. -/
theorem writer_contract (language : String) (s : Storage)
    (h : storageKeys s = [4, 5, 6, 7, 8]) :
    writeStage language s =
      [4, 5, 6, 7, 8].flatMap (fun k =>
        [Event.consolePrint (Msg.writingSummary (bucketAt s k).length k),
          Event.fileWrite (language ++ "/length" ++ toString k ++ ".json")
            (jsonDumpList (bucketAt s k))]) ∧
    jsonDumpList [] = "[]" := by
  refine ⟨?_, rfl⟩
  rcases s with _ | ⟨⟨k4, a⟩, _ | ⟨⟨k5, b⟩, _ | ⟨⟨k6, c⟩, _ | ⟨⟨k7, d⟩,
    _ | ⟨⟨k8, e⟩, _ | ⟨p, rest⟩⟩⟩⟩⟩⟩ <;> simp [storageKeys] at h
  obtain ⟨rfl, rfl, rfl, rfl, rfl⟩ := h
  simp [writeStage, bucketAt, storageGet]

/-- C6 witness. -/
theorem writer_contract_witness :
    writeStage "en" initStorage =
      [4, 5, 6, 7, 8].flatMap (fun k =>
        [Event.consolePrint (Msg.writingSummary (bucketAt initStorage k).length k),
          Event.fileWrite ("en" ++ "/length" ++ toString k ++ ".json")
            (jsonDumpList (bucketAt initStorage k))]) ∧
    jsonDumpList [] = "[]" :=
  writer_contract "en" initStorage rfl

/-- C7: determinism — two runs with the same arguments, the same parsed
layout, the same word-list lines, and the same writability produce the
same outcome: the same file writes with byte-identical contents and the
same console prints. -/
theorem deterministic_run (language keyboard path : String) (e₁ e₂ : Env)
    (hl : e₁.layout? = e₂.layout?) (hw : e₁.words? = e₂.words?)
    (hb : e₁.writable = e₂.writable) :
    mainRun language keyboard path e₁ = mainRun language keyboard path e₂ := by
  obtain ⟨l₁, w₁, b₁⟩ := e₁
  obtain ⟨l₂, w₂, b₂⟩ := e₂
  simp only at hl hw hb
  subst hl
  subst hw
  subst hb
  rfl

/-- C7 witness. -/
theorem deterministic_run_witness :
    mainRun "en" "qwerty" "words.txt" (Env.mk (some [['a']]) (some [['h', 'i']]) true) =
      mainRun "en" "qwerty" "words.txt" (Env.mk (some [['a']]) (some [['h', 'i']]) true) :=
  deterministic_run "en" "qwerty" "words.txt"
    (Env.mk (some [['a']]) (some [['h', 'i']]) true)
    (Env.mk (some [['a']]) (some [['h', 'i']]) true) rfl rfl rfl

/-- C8: a missing or malformed layout file, a missing word list, and an
unwritable output path each abort the run with an uncaught error and
nothing salvaged, while per-word rejections never abort: with an intact
environment the run succeeds for every word list and writes exactly the
five bucket files. -/
theorem fatal_error_model (language keyboard path : String) (env : Env) :
    (env.layout? = none → mainRun language keyboard path env = Except.error PyErr.layoutError) ∧
    (∀ layout, env.layout? = some layout → env.words? = none →
      mainRun language keyboard path env = Except.error PyErr.wordlistError) ∧
    (∀ layout words, env.layout? = some layout → env.words? = some words →
      env.writable = false →
      mainRun language keyboard path env = Except.error PyErr.writeError) ∧
    (∀ layout words, env.layout? = some layout → env.words? = some words →
      env.writable = true →
      ∃ tr, mainRun language keyboard path env = Except.ok tr ∧
        writeNames tr = [language ++ "/length4.json", language ++ "/length5.json",
          language ++ "/length6.json", language ++ "/length7.json",
          language ++ "/length8.json"]) := by
  obtain ⟨ol, ow, b⟩ := env
  refine ⟨?_, ?_, ?_, ?_⟩
  · intro h
    simp only at h
    subst h
    rfl
  · intro layout h hw
    simp only at h hw
    subst h
    subst hw
    rfl
  · intro layout words h hw hb
    simp only at h hw hb
    subst h
    subst hw
    subst hb
    obtain ⟨st', hrun, -, -, -, -⟩ :=
      scanLines_run (valid_chars layout) words
        (ScanState.mk (valid_chars layout) initStorage []) rfl rfl
    simp only [mainRun, hrun]
    rfl
  · intro layout words h hw hb
    simp only at h hw hb
    subst h
    subst hw
    subst hb
    obtain ⟨st', hrun, -, hk', -, -⟩ :=
      scanLines_run (valid_chars layout) words
        (ScanState.mk (valid_chars layout) initStorage []) rfl rfl
    refine ⟨st'.out.map Event.consolePrint ++ writeStage language st'.storage, ?_, ?_⟩
    · simp only [mainRun, hrun]
      rfl
    · rw [writeNames_prints_append, writeNames_writeStage, hk']
      simp only [List.map_cons, List.map_nil, String.append_assoc]
      rfl

/-- C8 witness. -/
theorem fatal_error_model_witness :
    mainRun "en" "qwerty" "words.txt" (Env.mk none none false) =
      Except.error PyErr.layoutError :=
  (fatal_error_model "en" "qwerty" "words.txt" (Env.mk none none false)).1 rfl
